import Mathlib

/-!
Verification development for the rymcheck catalog-reconciliation program
(src/rymcheck.go).

Strings are modelled as lists of Unicode code points (`List Char`), matching
Go's treatment of strings as rune sequences wherever the program converts to
`[]rune` or ranges over a string.  Floating-point similarity scores are
modelled as exact rationals (`ℚ`); every arithmetic expression the program
computes (`1 - d/maxLen`, comparisons against the literal `0.75`) involves
only small integers, where the float computation agrees with the exact
rational one.

The Unicode primitives used by `normalize` (case mapping, NFD decomposition,
character classification from the `unicode` and `golang.org/x/text` packages)
are external libraries; they are abstracted as a parameter structure `Uni`,
and theorems that need facts about real Unicode state them as explicit
hypotheses.  The external Levenshtein library is modelled from the spec (see
`lev`).
-/

namespace Rym

/-- Album record, from `type Album struct` in src/rymcheck.go (lines 25-33).
String fields are rune sequences; `productionYear` is Go `int`. -/
structure Album where
  rymAlbumId : List Char
  id : List Char
  name : List Char
  albumArtist : List Char
  productionYear : Int
  overview : List Char
  primaryImageTag : List Char
deriving DecidableEq, Repr

/-- Abstraction of the external Unicode primitives used by `normalize`:
`unicode.ToLower` (per-rune case mapping, as applied by `strings.ToLower`),
the full canonical decomposition of one code point (as performed by
`norm.NFD`), and the classification predicates `unicode.Is(unicode.Mn, ·)`,
`unicode.IsLetter`, `unicode.IsNumber`, `unicode.IsSpace`. -/
structure Uni where
  toLower : Char → Char
  nfdChar : Char → List Char
  isMn : Char → Bool
  isLetter : Char → Bool
  isNumber : Char → Bool
  isSpace : Char → Bool

/-- Keep predicate of the `normalize` loop: `unicode.IsLetter(r) ||
unicode.IsNumber(r) || unicode.IsSpace(r)` (src/rymcheck.go line 145). -/
def Uni.keep (u : Uni) (c : Char) : Bool :=
  u.isLetter c || u.isNumber c || u.isSpace c

/-- Go `strings.ToLower`: the per-rune case mapping applied to every rune. -/
def lowerStr (u : Uni) (s : List Char) : List Char :=
  s.map u.toLower

/-- Go `norm.NFD.String`: canonical decomposition of every code point.
The canonical reordering of combining marks that NFD additionally performs is
not modelled; it only permutes marks (nonzero combining class), all of which
the `normalize` filter below discards, so it cannot affect `normalize`. -/
def nfdStr (u : Uni) (s : List Char) : List Char :=
  s.flatMap u.nfdChar

/-- Rune filter of `normalize` (src/rymcheck.go lines 141-148): skip
combining marks, keep letters, numbers and whitespace, drop the rest. -/
def keepRunes (u : Uni) (s : List Char) : List Char :=
  s.filter (fun c => !u.isMn c && u.keep c)

/-- Accumulator worker for `fields`: `w` holds the reversed current word. -/
def fieldsAux (p : Char → Bool) : List Char → List Char → List (List Char)
  | [], w => if w.isEmpty then [] else [w.reverse]
  | c :: cs, w =>
    if p c then
      if w.isEmpty then fieldsAux p cs [] else w.reverse :: fieldsAux p cs []
    else fieldsAux p cs (c :: w)

/-- Go `strings.Fields`: split around maximal runs of whitespace code points,
returning the non-empty words. -/
def fields (p : Char → Bool) (l : List Char) : List (List Char) :=
  fieldsAux p l []

/-- Go `strings.Join(ws, " ")`. -/
def joinWords : List (List Char) → List Char
  | [] => []
  | [w] => w
  | w :: ws => w ++ ' ' :: joinWords ws

/-- The text normalizer `normalize` (src/rymcheck.go lines 137-150):
lower-case, canonically decompose, drop combining marks, keep only
letters/numbers/whitespace, then collapse whitespace via
`strings.Join(strings.Fields(·), " ")`. -/
def normalize (u : Uni) (s : List Char) : List Char :=
  joinWords (fields u.isSpace (keepRunes u (nfdStr u (lowerStr u s))))

/-- Modelled from the spec: the external library call
`levenshtein.DistanceForStrings([]rune(a), []rune(b), levenshtein.DefaultOptions)`
(src/rymcheck.go line 157) is not part of this repository's source; following
the spec it is modelled as the standard unit-cost Levenshtein edit distance
on sequences of Unicode code points. -/
def lev : List Char → List Char → Nat
  | [], bs => bs.length
  | _ :: as, [] => as.length + 1
  | a :: as, b :: bs =>
    if a = b then lev as bs
    else 1 + min (lev as (b :: bs)) (min (lev (a :: as) bs) (lev as bs))
termination_by as bs => as.length + bs.length
decreasing_by
  all_goals simp only [List.length_cons]
  all_goals omega

/-- The similarity scorer `similarity` (src/rymcheck.go lines 153-166):
returns 0 when either input is empty, otherwise `1 - d/maxLen` where `d` is
the edit distance and `maxLen` the larger rune count.  The Go float64 value
is modelled as an exact rational. -/
def similarity (a b : List Char) : ℚ :=
  if a = [] ∨ b = [] then 0
  else if max a.length b.length = 0 then 1
  else 1 - (lev a b : ℚ) / ((max a.length b.length : Nat) : ℚ)

/-- Normalized title as computed per record in `renderForm`
(src/rymcheck.go lines 178, 183): `normalize(strings.ToLower(·.Name))`. -/
def normTitle (u : Uni) (a : Album) : List Char :=
  normalize u (lowerStr u a.name)

/-- Normalized primary-contributor name as computed per record in
`renderForm` (src/rymcheck.go lines 179, 184):
`normalize(strings.ToLower(·.AlbumArtist))`. -/
def normArtist (u : Uni) (a : Album) : List Char :=
  normalize u (lowerStr u a.albumArtist)

/-- Accepted-match test of `renderForm` (src/rymcheck.go lines 186-189):
`titleSim > 0.75 && artistSim > 0.75`, both strict, conjunctive.  The float
literal `0.75` is exactly `3/4`. -/
def acceptedMatch (u : Uni) (jf rym : Album) : Bool :=
  decide ((3 : ℚ)/4 < similarity (normTitle u jf) (normTitle u rym)) &&
  decide ((3 : ℚ)/4 < similarity (normArtist u jf) (normArtist u rym))

/-- Inner loop of `renderForm` (src/rymcheck.go lines 181-193): scan the
reference list in input order, stopping at the first accepted match. -/
def scanDuplicate (u : Uni) (jf : Album) : List Album → Bool
  | [] => false
  | rym :: rest =>
    if acceptedMatch u jf rym then true else scanDuplicate u jf rest

/-- Outer loop of `renderForm` (src/rymcheck.go lines 176-197): keep, in
input order, every local record with no accepted match in the reference
list. -/
def reconcile (u : Uni) : List Album → List Album → List Album
  | [], _ => []
  | jf :: rest, rymAlbums =>
    if scanDuplicate u jf rymAlbums then reconcile u rest rymAlbums
    else jf :: reconcile u rest rymAlbums

/-- State-passing model of `renderForm`'s reconciliation block
(src/rymcheck.go lines 175-201): the first component is the value assigned
to the package-level variable `albumList` on line 198 (the new state), the
second is the list rendered to the user (the `Albums` template datum, which
is `albumList` after that assignment). -/
def renderFormReconcile (u : Uni) (albumListState rymAlbums : List Album) :
    List Album × List Album :=
  let filtered := reconcile u albumListState rymAlbums
  (filtered, filtered)

/-- Page request parameters: the `StartIndex` and `Limit` query parameters
set by `GetAllAlbums` (src/rymcheck.go lines 102-103). -/
structure Req where
  startIndex : Nat
  limit : Nat
deriving DecidableEq, Repr

/-- One page of the remote response, matching `itemsResponse`
(src/rymcheck.go lines 41-44). -/
structure Page where
  items : List Album
  totalRecordCount : Int
deriving DecidableEq, Repr

/-- Model of the remote endpoint together with the HTTP transport: a page
request either yields a decoded page or fails (request construction error,
transport error, non-OK status, or JSON decode error -- src/rymcheck.go
lines 107-126 all return an error to the caller). -/
def Server := Req → Except (List Char) Page

/-- The constant `pageSize` of `GetAllAlbums` (src/rymcheck.go line 86). -/
def pageSize : Nat := 200

/-- Loop exit condition of `GetAllAlbums` (src/rymcheck.go line 130):
`startIndex >= ir.TotalRecordCount || len(ir.Items) == 0`, evaluated after
`startIndex` has been advanced past the current page. -/
def stopCond (startIndex : Nat) (p : Page) : Bool :=
  decide (p.totalRecordCount ≤ ((startIndex + p.items.length : Nat) : Int)) ||
  p.items.isEmpty

/-- Pagination loop of `GetAllAlbums` (src/rymcheck.go lines 95-133).
`fuel` bounds the number of iterations so the model is total; `none` means
the loop would still be running.  Besides the Go return value the model
carries, as ghost instrumentation, the list of `(StartIndex, Limit)`
parameter pairs of the page requests issued. -/
def getAllAlbumsLoop (server : Server) :
    Nat → Nat → List Album → Option (Except (List Char) (List Album) × List Req)
  | 0, _, _ => none
  | fuel+1, startIndex, acc =>
    match server ⟨startIndex, pageSize⟩ with
    | .error e => some (.error e, [⟨startIndex, pageSize⟩])
    | .ok p =>
      if stopCond startIndex p then
        some (.ok (acc ++ p.items), [⟨startIndex, pageSize⟩])
      else
        (getAllAlbumsLoop server fuel (startIndex + p.items.length) (acc ++ p.items)).map
          (fun res => (res.1, ⟨startIndex, pageSize⟩ :: res.2))

/-- Entry point of `GetAllAlbums`: `startIndex := 0`, empty accumulator
(src/rymcheck.go lines 87-88). -/
def getAllAlbums (server : Server) (fuel : Nat) :
    Option (Except (List Char) (List Album) × List Req) :=
  getAllAlbumsLoop server fuel 0 []

/-- Requests the spec's pagination algorithm issues for a given page trace:
every request has limit 200 and each offset advances by the number of items
actually returned in the previous page, starting at offset 0 when invoked
with 0. -/
def fetchReqsSpec : Nat → List Page → List Req
  | _, [] => []
  | off, p :: rest => ⟨off, pageSize⟩ :: fetchReqsSpec (off + p.items.length) rest

/-- Spec-side termination discipline for a page trace: the loop stops
exactly at the first page after which the cumulative item count reaches the
reported total, or which is empty -- no earlier, no later. -/
def goodTrace : Nat → List Page → Bool
  | _, [] => false
  | off, [p] => stopCond off p
  | off, p :: q :: rest => !stopCond off p && goodTrace (off + p.items.length) (q :: rest)

/-- Outcome of `parseRymCSV` on an already CSV-decoded row matrix: a parsed
album list, an error returned to the caller, or a runtime panic (index out
of range). -/
inductive ParseOutcome where
  | ok (albums : List Album)
  | err (msg : List Char)
  | panicked
deriving DecidableEq, Repr

/-- Go `strings.TrimSpace`: drop leading and trailing whitespace runes
(whitespace modelled by `Char.isWhitespace`). -/
def trimSpace (s : List Char) : List Char :=
  (((s.dropWhile Char.isWhitespace).reverse).dropWhile Char.isWhitespace).reverse

/-- The helper `trimAll` (src/rymcheck.go lines 308-314). -/
def trimAll (xs : List (List Char)) : List (List Char) :=
  xs.map trimSpace

/-- Digit-string accumulator for the `strconv.Atoi` model. -/
def parseDigitsAux : List Char → Nat → Option Nat
  | [], acc => some acc
  | c :: cs, acc =>
    if c.isDigit then parseDigitsAux cs (acc * 10 + (c.toNat - 48)) else none

/-- Go `i, _ := strconv.Atoi(s)` with the error discarded
(src/rymcheck.go line 277): the parsed integer for a well-formed
optionally-signed decimal string, 0 otherwise. -/
def atoiOrZero (s : List Char) : Int :=
  match s with
  | [] => 0
  | '+' :: rest =>
    if rest = [] then 0 else
      match parseDigitsAux rest 0 with
      | some n => (n : Int)
      | none => 0
  | '-' :: rest =>
    if rest = [] then 0 else
      match parseDigitsAux rest 0 with
      | some n => -(n : Int)
      | none => 0
  | _ =>
    match parseDigitsAux s 0 with
    | some n => (n : Int)
    | none => 0

/-- One iteration of the data-row loop of `parseRymCSV` (src/rymcheck.go
lines 274-296).  The row is trimmed, then columns 6, 0, 5, 1 and 2 are read
by unchecked indexing (`cols[6]` first, on line 277); if the trimmed row has
at most 6 columns that access panics at runtime, which the model reports as
`none`. -/
def parseRow (row : List (List Char)) : Option Album :=
  let cols := trimAll row
  if 6 < cols.length then
    some { rymAlbumId := cols.getD 0 []
           id := []
           name := cols.getD 5 []
           albumArtist := trimSpace (cols.getD 1 [] ++ ' ' :: cols.getD 2 [])
           productionYear := atoiOrZero (cols.getD 6 [])
           overview := []
           primaryImageTag := [] }
  else none

/-- Data-row loop of `parseRymCSV`: rows are processed in order and appended
to the output; a row with too few columns aborts the process with a panic. -/
def parseRowsLoop : List (List (List Char)) → List Album → ParseOutcome
  | [], acc => .ok acc
  | row :: rest, acc =>
    match parseRow row with
    | none => .panicked
    | some alb => parseRowsLoop rest (acc ++ [alb])

/-- The parser `parseRymCSV` (src/rymcheck.go lines 248-299), modelled from
the row matrix produced by the CSV reader (which is configured with
`FieldsPerRecord = -1`, so rows of differing lengths all reach this code):
an empty matrix and a header with fewer than 12 columns are reported as
errors; then every data row is converted by `parseRow`. -/
def parseRymCSVRows (rows : List (List (List Char))) : ParseOutcome :=
  match rows with
  | [] => .err ("empty CSV".toList)
  | hdr :: body =>
    if (trimAll hdr).length < 12 then .err ("header too few columns".toList)
    else parseRowsLoop body []

/-- Concrete Unicode model for witnesses: identity case mapping, trivial
decomposition, no combining marks, ASCII classification, space as the only
whitespace. -/
def uWit : Uni where
  toLower := fun c => c
  nfdChar := fun c => [c]
  isMn := fun _ => false
  isLetter := Char.isAlpha
  isNumber := Char.isDigit
  isSpace := fun c => c = ' '

/-- Concrete album used by witnesses and counterexamples. -/
def aX : Album :=
  { rymAlbumId := []
    id := []
    name := ['x']
    albumArtist := ['y']
    productionYear := 0
    overview := []
    primaryImageTag := [] }

/-- Concrete album with an empty title, used by the C10 witness. -/
def aNoTitle : Album :=
  { rymAlbumId := []
    id := []
    name := []
    albumArtist := ['y']
    productionYear := 0
    overview := []
    primaryImageTag := [] }

/-- Concrete two-page server for the fetcher witness: page at offset 0
returns 2 items and reports a total of 3; page at offset 2 returns the last
item. -/
def srvWit : Server := fun r =>
  if r.startIndex = 0 then Except.ok ⟨[aX, aX], 3⟩
  else if r.startIndex = 2 then Except.ok ⟨[aX], 3⟩
  else Except.ok ⟨[], 0⟩

/-- Concrete always-failing server for the error-abort witness. -/
def srvErr : Server := fun _ => Except.error ("boom".toList)

/-- A 12-column header row. -/
def hdr12 : List (List Char) :=
  List.replicate 12 ['c']

/-! Theorems.  Helper lemmas come first, then one theorem per claim with its
witness or counterexample. -/

theorem lev_nil_right (as : List Char) : lev as [] = as.length := by
  cases as <;> simp [lev]

theorem lev_self (as : List Char) : lev as as = 0 := by
  induction as with
  | nil => simp [lev]
  | cons a as ih => simp [lev, ih]

theorem lev_symm (as bs : List Char) : lev as bs = lev bs as := by
  induction as, bs using lev.induct with
  | case1 bs => simp [lev, lev_nil_right]
  | case2 a as => simp [lev, lev_nil_right]
  | case3 as b bs ih => simp [lev, ih]
  | case4 a as b bs hne ih1 ih2 ih3 =>
    rw [lev, lev, if_neg hne, if_neg (fun h => hne h.symm), ih1, ih2, ih3]
    omega

theorem lev_le_max (as bs : List Char) : lev as bs ≤ max as.length bs.length := by
  induction as, bs using lev.induct with
  | case1 bs => simp [lev]
  | case2 a as => simp [lev]
  | case3 as b bs ih =>
    have h : lev (b :: as) (b :: bs) = lev as bs := by simp [lev]
    rw [h]
    simp only [List.length_cons]
    omega
  | case4 a as b bs hne ih1 ih2 ih3 =>
    rw [lev, if_neg hne]
    simp only [List.length_cons] at ih3 ⊢
    omega

theorem similarity_self (a : List Char) (ha : a ≠ []) : similarity a a = 1 := by
  have hl : a.length ≠ 0 := fun h => ha (List.length_eq_zero.mp h)
  simp [similarity, ha, hl, lev_self]

/-- C7: the similarity scorer is symmetric, and reflexive at 1 on non-empty
input: `similarity a b = similarity b a` for all strings, and
`similarity a a = 1` for every non-empty string `a`. -/
theorem similarity_symm_and_self (a b : List Char) :
    similarity a b = similarity b a ∧ (a ≠ [] → similarity a a = 1) := by
  constructor
  · by_cases h : a = [] ∨ b = []
    · have h2 : b = [] ∨ a = [] := Or.symm h
      simp [similarity, h, h2]
    · have h2 : ¬(b = [] ∨ a = []) := fun hc => h (Or.symm hc)
      rw [similarity, if_neg h, similarity, if_neg h2, Nat.max_comm, lev_symm]
  · exact similarity_self a

/-- Witness for C7 at a concrete non-empty string. -/
theorem similarity_symm_and_self_witness :
    (['x'] : List Char) ≠ [] ∧ similarity ['x'] ['x'] = 1 :=
  ⟨by decide, (similarity_symm_and_self ['x'] ['x']).2 (by decide)⟩

/-- C8: whenever either input is empty, `similarity` returns the value 0
(total function, not an error), including on two empty inputs. -/
theorem similarity_empty_zero (a b : List Char) :
    similarity [] b = 0 ∧ similarity a [] = 0 ∧
      similarity ([] : List Char) [] = 0 := by
  refine ⟨?_, ?_, ?_⟩ <;> simp [similarity]

/-- C9: on non-empty inputs, `similarity a b` equals
`1 - d / max (len a) (len b)` with `d` the code-point Levenshtein distance
and the lengths code-point counts, and the value lies in `[0, 1]`. -/
theorem similarity_formula_and_range (a b : List Char) (ha : a ≠ []) (hb : b ≠ []) :
    similarity a b = 1 - (lev a b : ℚ) / ((max a.length b.length : Nat) : ℚ) ∧
      0 ≤ similarity a b ∧ similarity a b ≤ 1 := by
  have hm : max a.length b.length ≠ 0 := by
    have : a.length ≠ 0 := fun h => ha (List.length_eq_zero.mp h)
    omega
  have hform : similarity a b = 1 - (lev a b : ℚ) / ((max a.length b.length : Nat) : ℚ) := by
    rw [similarity, if_neg (by tauto), if_neg hm]
  have hmq : (0 : ℚ) < ((max a.length b.length : Nat) : ℚ) := by
    exact_mod_cast Nat.pos_of_ne_zero hm
  have hd : ((lev a b : Nat) : ℚ) ≤ ((max a.length b.length : Nat) : ℚ) := by
    exact_mod_cast lev_le_max a b
  refine ⟨hform, ?_, ?_⟩
  · rw [hform]
    have : (lev a b : ℚ) / ((max a.length b.length : Nat) : ℚ) ≤ 1 :=
      (div_le_one hmq).mpr hd
    linarith
  · rw [hform]
    have : 0 ≤ (lev a b : ℚ) / ((max a.length b.length : Nat) : ℚ) :=
      div_nonneg (by positivity) (le_of_lt hmq)
    linarith

/-- Witness for C9 at concrete non-empty strings. -/
theorem similarity_formula_and_range_witness :
    similarity ['a'] ['b'] =
        1 - (lev ['a'] ['b'] : ℚ) /
          ((max (['a'] : List Char).length (['b'] : List Char).length : Nat) : ℚ) ∧
      0 ≤ similarity ['a'] ['b'] ∧ similarity ['a'] ['b'] ≤ 1 :=
  similarity_formula_and_range ['a'] ['b'] (by decide) (by decide)

theorem scanDuplicate_eq_any (u : Uni) (jf : Album) (l : List Album) :
    scanDuplicate u jf l = l.any (acceptedMatch u jf) := by
  induction l with
  | nil => simp [scanDuplicate]
  | cons r rest ih =>
    by_cases h : acceptedMatch u jf r <;> simp [scanDuplicate, h, ih]

theorem reconcile_eq_filter (u : Uni) (jfAlbums rymAlbums : List Album) :
    reconcile u jfAlbums rymAlbums =
      jfAlbums.filter (fun jf => !(rymAlbums.any (acceptedMatch u jf))) := by
  induction jfAlbums with
  | nil => simp [reconcile]
  | cons jf rest ih =>
    rw [reconcile, List.filter_cons, ih, ← scanDuplicate_eq_any]
    by_cases h : scanDuplicate u jf rymAlbums <;> simp [h]

/-- C1: reconciliation returns exactly those local records with no accepted
match in the reference list, where an accepted match is a reference record
with both normalized-title similarity and normalized-contributor similarity
strictly above 3/4 (see `acceptedMatch`); the inner scan stops at the first
accepted match (`scanDuplicate`), which is equivalent to the existential
filter, and the unique records keep their relative input order (the result
is a sublist of the local input). -/
theorem reconcile_spec (u : Uni) (jfAlbums rymAlbums : List Album) :
    reconcile u jfAlbums rymAlbums =
        jfAlbums.filter (fun jf => !(rymAlbums.any (acceptedMatch u jf))) ∧
      (reconcile u jfAlbums rymAlbums).Sublist jfAlbums ∧
      ∀ jf, jf ∈ reconcile u jfAlbums rymAlbums ↔
        jf ∈ jfAlbums ∧ ∀ rym ∈ rymAlbums, acceptedMatch u jf rym = false := by
  have he := reconcile_eq_filter u jfAlbums rymAlbums
  refine ⟨he, ?_, ?_⟩
  · rw [he]
    exact List.filter_sublist _
  · intro jf
    rw [he, List.mem_filter]
    simp [List.any_eq_false]

theorem normTitle_aX : normTitle uWit aX = ['x'] := rfl

theorem normArtist_aX : normArtist uWit aX = ['y'] := rfl

theorem acceptedMatch_aX : acceptedMatch uWit aX aX = true := by
  have h1 : similarity (normTitle uWit aX) (normTitle uWit aX) = 1 := by
    rw [normTitle_aX]
    exact similarity_self ['x'] (by decide)
  have h2 : similarity (normArtist uWit aX) (normArtist uWit aX) = 1 := by
    rw [normArtist_aX]
    exact similarity_self ['y'] (by decide)
  have h34 : (3 : ℚ)/4 < 1 := by norm_num
  simp [acceptedMatch, h1, h2, h34]

theorem reconcile_aX_dup : reconcile uWit [aX] [aX] = [] := by
  simp [reconcile, scanDuplicate, acceptedMatch_aX]

theorem reconcile_aX_nilRef : reconcile uWit [aX] [] = [aX] := by
  simp [reconcile, scanDuplicate]

/-- C2 counterexample: reconciliation results do persist across invocations.
With local catalog `[aX]` and reference `[aX]`, the first invocation stores
the filtered result `[]` in the package-level `albumList`; a second
invocation against the empty reference then renders `[]`, whereas an
invocation computed from the unchanged local catalog `[aX]` renders `[aX]`. -/
theorem renderForm_state_not_fresh :
    (renderFormReconcile uWit ((renderFormReconcile uWit [aX] [aX]).1) []).2 ≠
      (renderFormReconcile uWit [aX] []).2 := by
  have h1 : (renderFormReconcile uWit [aX] [aX]).1 = [] := reconcile_aX_dup
  have h2 : (renderFormReconcile uWit [aX] []).2 = [aX] := reconcile_aX_nilRef
  have h3 : (renderFormReconcile uWit [] []).2 = [] := by simp [renderFormReconcile, reconcile]
  rw [h1, h2, h3]
  simp

/-- C2 (amended): reconciliation never mutates a record -- its output is a
sublist of the caller's local catalog, containing the records themselves
unchanged -- but the result is persisted: the package-level `albumList` is
replaced by the filtered result, which is also what is rendered, so a
repeated invocation computes from the previous run's output rather than the
original local catalog. -/
theorem renderForm_partition_persists (u : Uni) (st rymAlbums : List Album) :
    (renderFormReconcile u st rymAlbums).1 = reconcile u st rymAlbums ∧
      (renderFormReconcile u st rymAlbums).2 = reconcile u st rymAlbums ∧
      (reconcile u st rymAlbums).Sublist st := by
  refine ⟨rfl, rfl, ?_⟩
  rw [reconcile_eq_filter]
  exact List.filter_sublist _

/-- C10: a local record whose normalized title or normalized contributor is
empty is classified unique for every reference catalog, because a similarity
comparison against an empty normalized field yields 0, never above the
threshold. -/
theorem reconcile_emptyField_unique (u : Uni) (jf : Album)
    (jfAlbums rymAlbums : List Album) (hmem : jf ∈ jfAlbums)
    (hempty : normTitle u jf = [] ∨ normArtist u jf = []) :
    jf ∈ reconcile u jfAlbums rymAlbums := by
  have h34 : ¬((3 : ℚ)/4 < 0) := by norm_num
  have hnd : ∀ rym ∈ rymAlbums, acceptedMatch u jf rym = false := by
    intro rym _
    rcases hempty with h | h
    · have hs : similarity (normTitle u jf) (normTitle u rym) = 0 := by
        rw [h]
        simp [similarity]
      simp [acceptedMatch, hs, h34]
    · have hs : similarity (normArtist u jf) (normArtist u rym) = 0 := by
        rw [h]
        simp [similarity]
      simp [acceptedMatch, hs, h34]
  have hany : rymAlbums.any (acceptedMatch u jf) = false := by
    rw [List.any_eq_false]
    intro rym hr
    simp [hnd rym hr]
  rw [reconcile_eq_filter, List.mem_filter]
  exact ⟨hmem, by simp [hany]⟩

/-- Witness for C10: a record with an empty title stays unique even against
a reference catalog containing the identical record. -/
theorem reconcile_emptyField_unique_witness :
    aNoTitle ∈ ([aNoTitle] : List Album) ∧
      (normTitle uWit aNoTitle = [] ∨ normArtist uWit aNoTitle = []) ∧
      aNoTitle ∈ reconcile uWit [aNoTitle] [aNoTitle] :=
  ⟨by simp, Or.inl rfl,
    reconcile_emptyField_unique uWit aNoTitle [aNoTitle] [aNoTitle] (by simp)
      (Or.inl rfl)⟩

theorem goodTrace_ne_nil (off : Nat) (pages : List Page)
    (h : goodTrace off pages = true) : pages ≠ [] := by
  intro hn
  subst hn
  simp [goodTrace] at h

theorem getAllAlbumsLoop_trace (server : Server) :
    ∀ (fuel startIndex : Nat) (acc out : List Album) (reqs : List Req),
      getAllAlbumsLoop server fuel startIndex acc = some (.ok out, reqs) →
      ∃ pages : List Page,
        reqs = fetchReqsSpec startIndex pages ∧
        goodTrace startIndex pages = true ∧
        List.Forall₂ (fun r p => server r = Except.ok p) reqs pages ∧
        out = acc ++ (pages.map Page.items).flatten := by
  intro fuel
  induction fuel with
  | zero =>
    intro s acc out reqs h
    simp [getAllAlbumsLoop] at h
  | succ fuel ih =>
    intro s acc out reqs h
    rw [getAllAlbumsLoop] at h
    cases hsv : server ⟨s, pageSize⟩ with
    | error e =>
      rw [hsv] at h
      simp at h
    | ok p =>
      rw [hsv] at h
      dsimp only at h
      by_cases hstop : stopCond s p
      · rw [if_pos hstop] at h
        simp only [Option.some.injEq, Prod.mk.injEq, Except.ok.injEq] at h
        obtain ⟨h1, h2⟩ := h
        refine ⟨[p], ?_, ?_, ?_, ?_⟩
        · rw [← h2]
          simp [fetchReqsSpec]
        · simp [goodTrace, hstop]
        · rw [← h2]
          exact List.Forall₂.cons hsv List.Forall₂.nil
        · rw [← h1]
          simp
      · rw [if_neg hstop] at h
        rcases Option.map_eq_some'.mp h with ⟨⟨res, reqs₀⟩, hrec, heq⟩
        simp only [Prod.mk.injEq] at heq
        obtain ⟨hres, hreqs⟩ := heq
        subst hres
        obtain ⟨pages, hr, hg, hf, ho⟩ := ih _ _ _ _ hrec
        obtain ⟨q, rest, rfl⟩ := List.exists_cons_of_ne_nil (goodTrace_ne_nil _ _ hg)
        refine ⟨p :: q :: rest, ?_, ?_, ?_, ?_⟩
        · rw [← hreqs, hr]
          simp [fetchReqsSpec]
        · simp only [goodTrace, hstop]
          simp [hg]
        · rw [← hreqs, hr]
          exact List.Forall₂.cons hsv (hr ▸ hf)
        · rw [ho]
          simp

/-- C3: a successful full fetch is explained by a page trace in which every
request carries the fixed limit 200, the first offset is 0 and each later
offset advances by the number of items actually returned in the previous
page (`fetchReqsSpec`), the result is the concatenation of the pages' items
in server order, and the loop stops exactly at the first page after which
the cumulative item count reaches the reported total or which is empty
(`goodTrace`). -/
theorem getAllAlbums_pagination_spec (server : Server) (fuel : Nat)
    (out : List Album) (reqs : List Req)
    (h : getAllAlbums server fuel = some (.ok out, reqs)) :
    ∃ pages : List Page,
      reqs = fetchReqsSpec 0 pages ∧
      goodTrace 0 pages = true ∧
      List.Forall₂ (fun r p => server r = Except.ok p) reqs pages ∧
      out = (pages.map Page.items).flatten := by
  obtain ⟨pages, h1, h2, h3, h4⟩ := getAllAlbumsLoop_trace server fuel 0 [] out reqs h
  exact ⟨pages, h1, h2, h3, by simpa using h4⟩

/-- Witness for C3: a concrete two-page fetch (2 items reported total 3,
then 1 item) requests offsets 0 and 2 with limit 200 and returns the three
items in order. -/
theorem getAllAlbums_pagination_spec_witness :
    ∃ pages : List Page,
      ([⟨0, pageSize⟩, ⟨2, pageSize⟩] : List Req) = fetchReqsSpec 0 pages ∧
      goodTrace 0 pages = true ∧
      List.Forall₂ (fun r p => srvWit r = Except.ok p)
        [⟨0, pageSize⟩, ⟨2, pageSize⟩] pages ∧
      [aX, aX, aX] = (pages.map Page.items).flatten :=
  getAllAlbums_pagination_spec srvWit 5 [aX, aX, aX] [⟨0, pageSize⟩, ⟨2, pageSize⟩] rfl

/-- C4: a failing page request at any point of the pagination loop makes the
whole fetch return that error immediately; the accumulated items of all
earlier successful pages are discarded (the error result carries no album
list), so no partial catalog reaches the caller. -/
theorem getAllAlbums_abort_on_error (server : Server) (fuel startIndex : Nat)
    (acc : List Album) (e : List Char)
    (h : server ⟨startIndex, pageSize⟩ = .error e) :
    getAllAlbumsLoop server (fuel + 1) startIndex acc =
      some (.error e, [⟨startIndex, pageSize⟩]) := by
  rw [getAllAlbumsLoop, h]

/-- Witness for C4: a failing first page aborts a fetch whose accumulator
already holds an item. -/
theorem getAllAlbums_abort_on_error_witness :
    srvErr ⟨0, pageSize⟩ = Except.error ("boom".toList) ∧
      getAllAlbumsLoop srvErr 1 0 [aX] =
        some (Except.error ("boom".toList), [⟨0, pageSize⟩]) :=
  ⟨rfl, getAllAlbums_abort_on_error srvErr 0 0 [aX] ("boom".toList) rfl⟩

/-- C5 is contradicted by the code: `parseRymCSV` validates only the header
width, then reads `cols[6]` on every data row without checking that row's
width, so a structurally valid header followed by a data row with fewer than
7 columns panics instead of returning an `InputFormatError`.  Concretely, a
12-column header followed by the single-column row `x` panics. -/
theorem parseRymCSV_short_row_panics :
    parseRymCSVRows (hdr12 :: [[['x']]]) = ParseOutcome.panicked := by
  rfl

/-- Companion fact for C5: on a well-formed input (12-column header, every
data row with at least 7 columns) the parser returns records, so the panic
is specific to short data rows. -/
theorem parseRymCSV_wide_row_ok :
    parseRymCSVRows (hdr12 :: [hdr12]) =
      ParseOutcome.ok [{ rymAlbumId := ['c']
                         id := []
                         name := ['c']
                         albumArtist := ['c', ' ', 'c']
                         productionYear := 0
                         overview := []
                         primaryImageTag := [] }] := by
  rfl

theorem fieldsAux_words (p : Char → Bool) :
    ∀ (l acc : List Char), (∀ c ∈ acc, p c = false) →
      ∀ w ∈ fieldsAux p l acc,
        w ≠ [] ∧ ∀ c ∈ w, p c = false ∧ (c ∈ l ∨ c ∈ acc) := by
  intro l
  induction l with
  | nil =>
    intro acc hacc w hw
    by_cases he : acc.isEmpty
    · simp [fieldsAux, he] at hw
    · rw [fieldsAux, if_neg he] at hw
      simp only [List.mem_singleton] at hw
      subst hw
      refine ⟨by simpa [List.isEmpty_iff] using he, ?_⟩
      intro c hc
      rw [List.mem_reverse] at hc
      exact ⟨hacc c hc, Or.inr hc⟩
  | cons a l ih =>
    intro acc hacc w hw
    by_cases hpa : p a
    · rw [fieldsAux, if_pos hpa] at hw
      by_cases he : acc.isEmpty
      · rw [if_pos he] at hw
        obtain ⟨hne, hall⟩ := ih [] (by simp) w hw
        refine ⟨hne, fun c hc => ?_⟩
        obtain ⟨hp, hm⟩ := hall c hc
        rcases hm with hm | hm
        · exact ⟨hp, Or.inl (List.mem_cons_of_mem a hm)⟩
        · simp at hm
      · rw [if_neg he] at hw
        rcases List.mem_cons.mp hw with hw | hw
        · subst hw
          refine ⟨by simpa [List.isEmpty_iff] using he, ?_⟩
          intro c hc
          rw [List.mem_reverse] at hc
          exact ⟨hacc c hc, Or.inr hc⟩
        · obtain ⟨hne, hall⟩ := ih [] (by simp) w hw
          refine ⟨hne, fun c hc => ?_⟩
          obtain ⟨hp, hm⟩ := hall c hc
          rcases hm with hm | hm
          · exact ⟨hp, Or.inl (List.mem_cons_of_mem a hm)⟩
          · simp at hm
    · rw [fieldsAux, if_neg hpa] at hw
      have hacc2 : ∀ c ∈ a :: acc, p c = false := by
        intro c hc
        rcases List.mem_cons.mp hc with hc | hc
        · subst hc
          exact Bool.eq_false_iff.mpr hpa
        · exact hacc c hc
      obtain ⟨hne, hall⟩ := ih (a :: acc) hacc2 w hw
      refine ⟨hne, fun c hc => ?_⟩
      obtain ⟨hp, hm⟩ := hall c hc
      rcases hm with hm | hm
      · exact ⟨hp, Or.inl (List.mem_cons_of_mem a hm)⟩
      · rcases List.mem_cons.mp hm with hm | hm
        · exact ⟨hp, Or.inl (hm ▸ List.mem_cons_self a l)⟩
        · exact ⟨hp, Or.inr hm⟩

theorem fieldsAux_through_word (p : Char → Bool) :
    ∀ (v rest acc : List Char), (∀ c ∈ v, p c = false) →
      fieldsAux p (v ++ rest) acc = fieldsAux p rest (v.reverse ++ acc) := by
  intro v
  induction v with
  | nil => intro rest acc _; simp
  | cons c v ih =>
    intro rest acc hv
    have hpc : ¬(p c = true) := by
      simp [hv c (List.mem_cons_self c v)]
    rw [List.cons_append, fieldsAux, if_neg hpc, ih rest (c :: acc)
      (fun x hx => hv x (List.mem_cons_of_mem c hx))]
    simp

theorem fields_joinWords (p : Char → Bool) (hsp : p ' ' = true) :
    ∀ ws : List (List Char),
      (∀ w ∈ ws, w ≠ [] ∧ ∀ c ∈ w, p c = false) →
      fields p (joinWords ws) = ws := by
  intro ws
  induction ws with
  | nil => intro _; rfl
  | cons w ws ih =>
    intro hws
    obtain ⟨hwne, hwp⟩ := hws w (List.mem_cons_self w ws)
    have hwe : w.reverse.isEmpty = false := by
      simp [List.isEmpty_iff, hwne]
    cases ws with
    | nil =>
      show fields p (joinWords [w]) = [w]
      have : joinWords [w] = w ++ [] := by simp [joinWords]
      rw [this, fields, fieldsAux_through_word p w [] [] hwp]
      rw [List.append_nil, fieldsAux, if_neg (by simp [hwe])]
      simp
    | cons w2 ws =>
      have hj : joinWords (w :: w2 :: ws) = w ++ ' ' :: joinWords (w2 :: ws) := by
        simp [joinWords]
      rw [fields, hj, fieldsAux_through_word p w (' ' :: joinWords (w2 :: ws)) [] hwp]
      rw [List.append_nil, fieldsAux, if_pos hsp, if_neg (by simp [hwe])]
      rw [List.reverse_reverse]
      have := ih (fun v hv => hws v (List.mem_cons_of_mem w hv))
      rw [fields] at this
      rw [this]

theorem mem_joinWords (ws : List (List Char)) (c : Char) (hc : c ∈ joinWords ws) :
    c = ' ' ∨ ∃ w ∈ ws, c ∈ w := by
  induction ws with
  | nil => simp [joinWords] at hc
  | cons w ws ih =>
    cases ws with
    | nil =>
      simp only [joinWords] at hc
      exact Or.inr ⟨w, List.mem_cons_self w [], hc⟩
    | cons w2 ws =>
      have hj : joinWords (w :: w2 :: ws) = w ++ ' ' :: joinWords (w2 :: ws) := by
        simp [joinWords]
      rw [hj] at hc
      rcases List.mem_append.mp hc with hc | hc
      · exact Or.inr ⟨w, List.mem_cons_self w _, hc⟩
      · rcases List.mem_cons.mp hc with hc | hc
        · exact Or.inl hc
        · rcases ih hc with hc | ⟨v, hv, hcv⟩
          · exact Or.inl hc
          · exact Or.inr ⟨v, List.mem_cons_of_mem w hv, hcv⟩

theorem mem_pipeline (u : Uni) (s : List Char) (c : Char)
    (hc : c ∈ keepRunes u (nfdStr u (lowerStr u s))) :
    (∃ d, c ∈ u.nfdChar (u.toLower d)) ∧ u.isMn c = false ∧ u.keep c = true := by
  rw [keepRunes, List.mem_filter] at hc
  obtain ⟨hmem, hcond⟩ := hc
  rw [Bool.and_eq_true, Bool.not_eq_true'] at hcond
  rw [nfdStr, List.mem_flatMap] at hmem
  obtain ⟨d1, hd1, hcd⟩ := hmem
  rw [lowerStr, List.mem_map] at hd1
  obtain ⟨d, _, hdl⟩ := hd1
  exact ⟨⟨d, hdl ▸ hcd⟩, hcond.1, hcond.2⟩

theorem pipeline_fixed (u : Uni) :
    ∀ l : List Char,
      (∀ c ∈ l, u.toLower c = c ∧ u.nfdChar c = [c] ∧
        u.isMn c = false ∧ u.keep c = true) →
      keepRunes u (nfdStr u (lowerStr u l)) = l := by
  intro l
  induction l with
  | nil => intro _; rfl
  | cons c ls ih =>
    intro hl
    obtain ⟨htl, hnf, hmn, hkp⟩ := hl c (List.mem_cons_self c ls)
    have hrest := ih (fun x hx => hl x (List.mem_cons_of_mem c hx))
    rw [lowerStr, List.map_cons, htl, nfdStr, List.flatMap_cons, hnf]
    rw [List.singleton_append, keepRunes, List.filter_cons]
    rw [hmn, hkp]
    simp only [Bool.not_false, Bool.and_self, if_true]
    rw [keepRunes, nfdStr, lowerStr] at hrest
    rw [hrest]

/-- C6: the text normalizer is idempotent:
`normalize (normalize s) = normalize s` for every string `s`.  The three
hypotheses are facts of the external Unicode tables that `normalize` calls
into: (h1) every code point in the full canonical decomposition of a
lower-cased code point is fixed by lower-casing; (h2) code points occurring
in full canonical decompositions have no further decomposition; (hsp) the
space character is lower-case, decomposition-free, not a combining mark,
and whitespace. -/
theorem normalize_idempotent (u : Uni)
    (h1 : ∀ d c, c ∈ u.nfdChar (u.toLower d) → u.toLower c = c)
    (h2 : ∀ d c, c ∈ u.nfdChar d → u.nfdChar c = [c])
    (hsp : u.toLower ' ' = ' ' ∧ u.nfdChar ' ' = [' '] ∧ u.isMn ' ' = false ∧
      u.isSpace ' ' = true) (s : List Char) :
    normalize u (normalize u s) = normalize u s := by
  obtain ⟨hspl, hspn, hspm, hsps⟩ := hsp
  have hwords := fieldsAux_words u.isSpace (keepRunes u (nfdStr u (lowerStr u s)))
    [] (by simp)
  have hout : ∀ c ∈ normalize u s, u.toLower c = c ∧ u.nfdChar c = [c] ∧
      u.isMn c = false ∧ u.keep c = true := by
    intro c hc
    rcases mem_joinWords _ c hc with hc | ⟨w, hw, hcw⟩
    · subst hc
      refine ⟨hspl, hspn, hspm, ?_⟩
      simp [Uni.keep, hsps]
    · obtain ⟨_, hall⟩ := hwords w hw
      obtain ⟨_, hm⟩ := hall c hcw
      have hmem : c ∈ keepRunes u (nfdStr u (lowerStr u s)) := by
        rcases hm with hm | hm
        · exact hm
        · simp at hm
      obtain ⟨⟨d, hd⟩, hmn, hkp⟩ := mem_pipeline u s c hmem
      exact ⟨h1 d c hd, h2 (u.toLower d) c hd, hmn, hkp⟩
  have hpipe : keepRunes u (nfdStr u (lowerStr u (normalize u s))) = normalize u s :=
    pipeline_fixed u (normalize u s) hout
  have hwprops : ∀ w ∈ fields u.isSpace (keepRunes u (nfdStr u (lowerStr u s))),
      w ≠ [] ∧ ∀ c ∈ w, u.isSpace c = false := by
    intro w hw
    obtain ⟨hne, hall⟩ := hwords w hw
    exact ⟨hne, fun c hc => (hall c hc).1⟩
  calc normalize u (normalize u s)
      = joinWords (fields u.isSpace (normalize u s)) := by
        rw [normalize, hpipe]
    _ = joinWords (fields u.isSpace
          (joinWords (fields u.isSpace (keepRunes u (nfdStr u (lowerStr u s)))))) := by
        rw [normalize]
    _ = joinWords (fields u.isSpace (keepRunes u (nfdStr u (lowerStr u s)))) := by
        rw [fields_joinWords u.isSpace hsps _ hwprops]
    _ = normalize u s := by rw [normalize]

/-- Witness for C6: the hypotheses hold of the concrete Unicode model
`uWit`, and idempotence follows at a concrete string. -/
theorem normalize_idempotent_witness :
    normalize uWit (normalize uWit ('a' :: ' ' :: ' ' :: 'b' :: '!' :: [])) =
      normalize uWit ('a' :: ' ' :: ' ' :: 'b' :: '!' :: []) :=
  normalize_idempotent uWit (fun _ _ _ => rfl) (fun _ _ _ => rfl)
    ⟨rfl, rfl, rfl, by decide⟩ ('a' :: ' ' :: ' ' :: 'b' :: '!' :: [])

end Rym
